import Mathlib

/-!
Verification of the StickyCounter lock-free primitive
(src/sticky_zero_counter.hpp).

The counter is a single 64-bit word.  Bit 63 is the dead flag
(`is_zero` in the source), bit 62 is the assist flag (`help`), and the
low 62 bits are the live count.  The three operations `Increment`,
`Decrement` and `Read` act on the word through single atomic
instructions: fetch_add / fetch_sub and compare_exchange_strong.

We embed each operation as a sequence of atomic micro-steps (one per
atomic instruction in the source) and build an interleaving machine:
a configuration is the shared word together with the list of thread
continuations; a schedule is a list of thread indices; running a
schedule folds the micro-step function over it.  Ghost counters
(crossings, deaths, helpWins, and the base-word bookkeeping) record
events for stating temporal properties; they do not influence the word
or the threads.
-/

namespace StickyCounter

/-- Modulus of the 64-bit machine word. -/
def M : Nat := 2 ^ 64

/-- Dead flag: bit 63 of the word (`is_zero = 1ull << 63` in the source). -/
def is_zero : Nat := 2 ^ 63

/-- Assist flag: bit 62 of the word (`help = 1ull << 62` in the source). -/
def help : Nat := 2 ^ 62

/-- The 62-bit live-count field of a word (its low 62 bits). -/
def liveCount (w : Nat) : Nat := w % help

/-- One `Increment` call: `counter_.fetch_add(1)`; the result is `false`
iff the pre-increment snapshot carried the dead flag.  Returns
(result, new word). -/
def incOp (w : Nat) : Bool × Nat :=
  (decide (w &&& is_zero = 0), (w + 1) % M)

/-- Continuation of a `Decrement` call after its first atomic step. -/
inductive DecSt where
  | cas1 : DecSt
  | cas2 : Nat → DecSt
  | ret : Bool → DecSt
deriving DecidableEq

/-- First atomic step of `Decrement`: `counter_.fetch_sub(1)`.  If the
pre-subtraction word was exactly 1 the call proceeds to its first
compare-and-swap, otherwise it returns `false`. -/
def decSub (w : Nat) : DecSt × Nat :=
  if w = 1 then (DecSt.cas1, (w + (M - 1)) % M)
  else (DecSt.ret false, (w + (M - 1)) % M)

/-- Second atomic step of `Decrement`:
`uint64_t v = 0; if (counter_.compare_exchange_strong(v, is_zero)) return true;`.
On failure `v` is refreshed to the current word and the call proceeds
to the second compare-and-swap. -/
def decCas1 (w : Nat) : DecSt × Nat :=
  if w = 0 then (DecSt.ret true, is_zero) else (DecSt.cas2 w, w)

/-- Third atomic step of `Decrement`:
`else if ((v | help) && counter_.compare_exchange_strong(v, is_zero)) return true;`.
The guard `(v | help)` is evaluated on the thread-local `v`; the
compare-and-swap is the atomic instruction. -/
def decCas2 (v w : Nat) : DecSt × Nat :=
  if v ||| help ≠ 0 then
    (if w = v then (DecSt.ret true, is_zero) else (DecSt.ret false, w))
  else (DecSt.ret false, w)

/-- Continuation of a `Read` call after its first atomic step. -/
inductive RdSt where
  | rcas : RdSt
  | ret : Nat → RdSt
deriving DecidableEq

/-- First atomic step of `Read`: `uint64_t v = counter_.load();`.  When
`v` is nonzero the call finishes immediately with
`(v & is_zero) ? 0 : v`; when `v = 0` it proceeds to its
compare-and-swap. -/
def rdLoad (w : Nat) : RdSt × Nat :=
  if w = 0 then (RdSt.rcas, w)
  else (RdSt.ret (if w &&& is_zero ≠ 0 then 0 else w), w)

/-- Second atomic step of `Read`:
`if (counter_.compare_exchange_strong(v, is_zero | help)) return 0;`
followed by `return (v & is_zero) ? 0 : v;` with the refreshed `v`. -/
def rdCas (w : Nat) : RdSt × Nat :=
  if w = 0 then (RdSt.ret 0, is_zero ||| help)
  else (RdSt.ret (if w &&& is_zero ≠ 0 then 0 else w), w)

/-- A thread continuation: a call that has not started, or the
continuation of a started call. -/
inductive Th where
  | inc : Th
  | incDone : Bool → Th
  | dec : Th
  | decAt : DecSt → Th
  | rd : Th
  | rdAt : RdSt → Th
deriving DecidableEq

/-- Whether a thread is a `Decrement` whose `fetch_sub` has executed. -/
def isSubbed : Th → Bool
  | Th.decAt _ => true
  | _ => false

/-- Whether a thread is an `Increment` whose `fetch_add` has executed. -/
def isAdded : Th → Bool
  | Th.incDone _ => true
  | _ => false

/-- Number of executed `fetch_sub`s (one per started `Decrement`). -/
def subsOf (l : List Th) : Nat := l.countP isSubbed

/-- Number of executed `fetch_add`s (one per completed `Increment`). -/
def addsOf (l : List Th) : Nat := l.countP isAdded

/-- A configuration of the interleaving machine: the shared word, the
thread continuations, and ghost event counters.  `crossings` counts the
`fetch_sub`s whose pre-subtraction word was exactly 1 (zero crossings);
`deaths` counts the successful compare-and-swaps that install the dead
flag; `helpWins` counts the successful second compare-and-swaps of
`Decrement` whose expected value was `is_zero ||| help`; `baseW`,
`adds0` and `subs0` record the word installed by the most recent
death compare-and-swap and the add/sub counts at that moment. -/
structure Config where
  word : Nat
  ths : List Th
  crossings : Nat
  deaths : Nat
  helpWins : Nat
  baseW : Nat
  adds0 : Nat
  subs0 : Nat
deriving DecidableEq

/-- Number of executed `fetch_sub`s in a configuration. -/
def numSubs (c : Config) : Nat := subsOf c.ths

/-- Number of executed `fetch_add`s in a configuration. -/
def numAdds (c : Config) : Nat := addsOf c.ths

/-- One micro-step of the machine: thread `i` (if it exists and is not
finished) executes its next atomic instruction. -/
def step (c : Config) (i : Nat) : Config :=
  match c.ths[i]? with
  | some Th.inc =>
    { c with word := (incOp c.word).2,
             ths := c.ths.set i (Th.incDone (incOp c.word).1) }
  | some Th.dec =>
    { c with word := (decSub c.word).2,
             ths := c.ths.set i (Th.decAt (decSub c.word).1),
             crossings := c.crossings + (if c.word = 1 then 1 else 0) }
  | some (Th.decAt DecSt.cas1) =>
    { c with word := (decCas1 c.word).2,
             ths := c.ths.set i (Th.decAt (decCas1 c.word).1),
             deaths := c.deaths + (if c.word = 0 then 1 else 0),
             baseW := if c.word = 0 then is_zero else c.baseW,
             adds0 := if c.word = 0 then numAdds c else c.adds0,
             subs0 := if c.word = 0 then numSubs c else c.subs0 }
  | some (Th.decAt (DecSt.cas2 v)) =>
    { c with word := (decCas2 v c.word).2,
             ths := c.ths.set i (Th.decAt (decCas2 v c.word).1),
             deaths := c.deaths + (if v ||| help ≠ 0 ∧ c.word = v then 1 else 0),
             helpWins := c.helpWins +
               (if v ||| help ≠ 0 ∧ c.word = v ∧ v = is_zero ||| help then 1 else 0),
             baseW := if v ||| help ≠ 0 ∧ c.word = v then is_zero else c.baseW,
             adds0 := if v ||| help ≠ 0 ∧ c.word = v then numAdds c else c.adds0,
             subs0 := if v ||| help ≠ 0 ∧ c.word = v then numSubs c else c.subs0 }
  | some Th.rd =>
    { c with word := (rdLoad c.word).2,
             ths := c.ths.set i (Th.rdAt (rdLoad c.word).1) }
  | some (Th.rdAt RdSt.rcas) =>
    { c with word := (rdCas c.word).2,
             ths := c.ths.set i (Th.rdAt (rdCas c.word).1),
             deaths := c.deaths + (if c.word = 0 then 1 else 0),
             baseW := if c.word = 0 then is_zero ||| help else c.baseW,
             adds0 := if c.word = 0 then numAdds c else c.adds0,
             subs0 := if c.word = 0 then numSubs c else c.subs0 }
  | _ => c

/-- Run a schedule (a list of thread indices) from a configuration. -/
def run (c : Config) (sched : List Nat) : Config := sched.foldl step c

/-- Initial configuration: the constructor initializes the word to 1
(`std::atomic<uint64_t> counter_{1}`); no call has started. -/
def init (ops : List Th) : Config :=
  { word := 1, ths := ops, crossings := 0, deaths := 0, helpWins := 0,
    baseW := 0, adds0 := 0, subs0 := 0 }

/-- Well-formed operation list: every thread is a not-yet-started call. -/
abbrev Start (ops : List Th) : Prop :=
  ∀ t ∈ ops, t = Th.inc ∨ t = Th.dec ∨ t = Th.rd

/-- Caller contract: `Decrement` is never called without a prior
matching `Increment` (the construction counting as one implicit
increment), so at every point of the execution the number of started
decrements is at most one more than the number of completed
increments. -/
abbrev Contract (ops : List Th) (sched : List Nat) : Prop :=
  ∀ n ≤ sched.length,
    numSubs (run (init ops) (sched.take n)) ≤
      numAdds (run (init ops) (sched.take n)) + 1

/-- Caller contract: the 62-bit live count never overflows, i.e. the
net number of outstanding owners (1 for the construction, plus
completed increments, minus started decrements) stays at most
2 ^ 62 - 1 at every point of the execution. -/
abbrev NoOverflow (ops : List Th) (sched : List Nat) : Prop :=
  ∀ n ≤ sched.length,
    numAdds (run (init ops) (sched.take n)) + 2 ≤
      numSubs (run (init ops) (sched.take n)) + 2 ^ 62



/-- Threads that are in the middle of a call: a `Decrement` between its
subtraction and the end of its compare-and-swap sequence, or a `Read`
between a zero load and its compare-and-swap.  Such a continuation can
only arise after some subtraction has taken the word from 1 to 0. -/
def notMid : Th → Bool := fun t =>
  match t with
  | Th.decAt DecSt.cas1 => false
  | Th.decAt (DecSt.cas2 _) => false
  | Th.rdAt RdSt.rcas => false
  | _ => true

/-- Invariant of executions in which no zero crossing has happened: the
word is exactly one plus completed increments minus started decrements,
it is still positive, and no thread is inside a compare-and-swap
sequence. -/
structure NoCross (c : Config) : Prop where
  bal : c.word + numSubs c = 1 + numAdds c
  wpos : 1 ≤ c.word
  mids : ∀ t ∈ c.ths, notMid t = true

/-- Invariant components after the first successful death
compare-and-swap.  `baseW` is the word that CAS installed, `adds0` and
`subs0` the counts at that moment; the word has since drifted from
`baseW` by the adds and subs of the window. -/
structure PostDeath (c : Config) : Prop where
  a0le : c.adds0 ≤ numAdds c
  s0le : c.subs0 ≤ numSubs c
  c0 : c.subs0 ≤ c.adds0 + 1
  o0 : c.adds0 + 2 ≤ c.subs0 + 2 ^ 62
  modeq : Nat.ModEq M (c.word + (numSubs c - c.subs0)) (c.baseW + (numAdds c - c.adds0))
  base_cases : c.baseW = is_zero ∨ c.baseW = is_zero ||| help
  hw_le : c.helpWins ≤ 1
  hw_base : c.helpWins ≠ 0 → c.baseW = is_zero

/-- Global invariant of contract-respecting executions. -/
structure DeathInv (c : Config) : Prop where
  wlt : c.word < M
  pre : c.deaths = 0 → c.word + numSubs c = 1 + numAdds c ∧ c.helpWins = 0
  post : c.deaths ≠ 0 → PostDeath c

/-! ### Bitwise bridge lemmas -/

/-- A word below a power of two has that bit clear. -/
theorem and_pow_eq_zero_of_lt (w i : Nat) (h : w < 2 ^ i) : w &&& 2 ^ i = 0 := by
  rw [Nat.and_two_pow, Nat.testBit_lt_two_pow h]
  simp

/-- A word below `2 ^ (i + 1)` whose bit `i` is clear is below `2 ^ i`. -/
theorem lt_pow_of_and_eq_zero (w i : Nat) (h : w < 2 ^ (i + 1)) (hb : w &&& 2 ^ i = 0) :
    w < 2 ^ i := by
  by_contra hge
  push_neg at hge
  have hpos : 0 < 2 ^ i := Nat.pos_pow_of_pos i (by norm_num)
  have hbit : w.testBit i = true := by
    rw [Nat.testBit_to_div_mod]
    have hlt : w / 2 ^ i < 2 := by
      apply Nat.div_lt_of_lt_mul
      rw [← Nat.pow_succ]
      exact h
    have hge1 : 1 ≤ w / 2 ^ i := (Nat.one_le_div_iff hpos).2 hge
    have h1 : w / 2 ^ i = 1 := by omega
    simp [h1]
  rw [Nat.and_two_pow, hbit] at hb
  simp at hb

/-! ### Numeric values of the flag constants -/

theorem M_eq : M = 18446744073709551616 := by norm_num [M]

theorem is_zero_eq : is_zero = 9223372036854775808 := by norm_num [is_zero]

theorem help_eq : help = 4611686018427387904 := by norm_num [help]

theorem izh_eq : is_zero ||| help = 13835058055282163712 := by decide

/-! ### Counting lemmas -/

/-- Updating one entry of a list shifts a `countP` by the membership of
the old and new entries. -/
theorem countP_set_get (l : List Th) (i : Nat) (t t' : Th) (p : Th → Bool)
    (h : l[i]? = some t) :
    (l.set i t').countP p + (if p t then 1 else 0) =
      l.countP p + (if p t' then 1 else 0) := by
  induction l generalizing i with
  | nil => simp at h
  | cons x xs ih =>
    cases i with
    | zero =>
      simp only [List.getElem?_cons_zero, Option.some_inj] at h
      subst h
      simp only [List.set_cons_zero, List.countP_cons]
      omega
    | succ j =>
      simp only [List.getElem?_cons_succ] at h
      have hj := ih j h
      simp only [List.set_cons_succ, List.countP_cons]
      omega

/-- `subsOf` is unchanged by an update that keeps `isSubbed`. -/
theorem subsOf_set_eq (l : List Th) (i : Nat) (t t' : Th) (h : l[i]? = some t)
    (hp : isSubbed t' = isSubbed t) : subsOf (l.set i t') = subsOf l := by
  have hc := countP_set_get l i t t' isSubbed h
  rw [hp] at hc
  unfold subsOf
  omega

/-- `subsOf` grows by one when a not-subbed entry becomes subbed. -/
theorem subsOf_set_add (l : List Th) (i : Nat) (t t' : Th) (h : l[i]? = some t)
    (hf : isSubbed t = false) (ht : isSubbed t' = true) :
    subsOf (l.set i t') = subsOf l + 1 := by
  have hc := countP_set_get l i t t' isSubbed h
  rw [hf, ht] at hc
  unfold subsOf
  simp at hc
  omega

/-- `addsOf` is unchanged by an update that keeps `isAdded`. -/
theorem addsOf_set_eq (l : List Th) (i : Nat) (t t' : Th) (h : l[i]? = some t)
    (hp : isAdded t' = isAdded t) : addsOf (l.set i t') = addsOf l := by
  have hc := countP_set_get l i t t' isAdded h
  rw [hp] at hc
  unfold addsOf
  omega

/-- `addsOf` grows by one when a not-added entry becomes added. -/
theorem addsOf_set_add (l : List Th) (i : Nat) (t t' : Th) (h : l[i]? = some t)
    (hf : isAdded t = false) (ht : isAdded t' = true) :
    addsOf (l.set i t') = addsOf l + 1 := by
  have hc := countP_set_get l i t t' isAdded h
  rw [hf, ht] at hc
  unfold addsOf
  simp at hc
  omega

/-! ### Step equations -/

theorem step_none (c : Config) (i : Nat) (h : c.ths[i]? = none) : step c i = c := by
  unfold step
  rw [h]

theorem step_incDone (c : Config) (i : Nat) (b : Bool)
    (h : c.ths[i]? = some (Th.incDone b)) : step c i = c := by
  unfold step
  rw [h]

theorem step_decRet (c : Config) (i : Nat) (b : Bool)
    (h : c.ths[i]? = some (Th.decAt (DecSt.ret b))) : step c i = c := by
  unfold step
  rw [h]

theorem step_rdRet (c : Config) (i : Nat) (r : Nat)
    (h : c.ths[i]? = some (Th.rdAt (RdSt.ret r))) : step c i = c := by
  unfold step
  rw [h]

theorem step_inc (c : Config) (i : Nat) (h : c.ths[i]? = some Th.inc) :
    step c i = { c with word := (incOp c.word).2,
                        ths := c.ths.set i (Th.incDone (incOp c.word).1) } := by
  unfold step
  rw [h]

theorem step_dec (c : Config) (i : Nat) (h : c.ths[i]? = some Th.dec) :
    step c i = { c with word := (decSub c.word).2,
                        ths := c.ths.set i (Th.decAt (decSub c.word).1),
                        crossings := c.crossings + (if c.word = 1 then 1 else 0) } := by
  unfold step
  rw [h]

theorem step_cas1 (c : Config) (i : Nat) (h : c.ths[i]? = some (Th.decAt DecSt.cas1)) :
    step c i = { c with word := (decCas1 c.word).2,
                        ths := c.ths.set i (Th.decAt (decCas1 c.word).1),
                        deaths := c.deaths + (if c.word = 0 then 1 else 0),
                        baseW := if c.word = 0 then is_zero else c.baseW,
                        adds0 := if c.word = 0 then numAdds c else c.adds0,
                        subs0 := if c.word = 0 then numSubs c else c.subs0 } := by
  unfold step
  rw [h]

theorem step_cas2 (c : Config) (i : Nat) (v : Nat)
    (h : c.ths[i]? = some (Th.decAt (DecSt.cas2 v))) :
    step c i = { c with word := (decCas2 v c.word).2,
                        ths := c.ths.set i (Th.decAt (decCas2 v c.word).1),
                        deaths := c.deaths + (if v ||| help ≠ 0 ∧ c.word = v then 1 else 0),
                        helpWins := c.helpWins +
                          (if v ||| help ≠ 0 ∧ c.word = v ∧ v = is_zero ||| help then 1 else 0),
                        baseW := if v ||| help ≠ 0 ∧ c.word = v then is_zero else c.baseW,
                        adds0 := if v ||| help ≠ 0 ∧ c.word = v then numAdds c else c.adds0,
                        subs0 := if v ||| help ≠ 0 ∧ c.word = v then numSubs c else c.subs0 } := by
  unfold step
  rw [h]

theorem step_rd (c : Config) (i : Nat) (h : c.ths[i]? = some Th.rd) :
    step c i = { c with word := (rdLoad c.word).2,
                        ths := c.ths.set i (Th.rdAt (rdLoad c.word).1) } := by
  unfold step
  rw [h]

theorem step_rcas (c : Config) (i : Nat) (h : c.ths[i]? = some (Th.rdAt RdSt.rcas)) :
    step c i = { c with word := (rdCas c.word).2,
                        ths := c.ths.set i (Th.rdAt (rdCas c.word).1),
                        deaths := c.deaths + (if c.word = 0 then 1 else 0),
                        baseW := if c.word = 0 then is_zero ||| help else c.baseW,
                        adds0 := if c.word = 0 then numAdds c else c.adds0,
                        subs0 := if c.word = 0 then numSubs c else c.subs0 } := by
  unfold step
  rw [h]

/-! ### Prefix and run lemmas -/

/-- Running a schedule extended by one index. -/
theorem run_take_succ (c : Config) (sched : List Nat) (n : Nat) (a : Nat)
    (h : sched[n]? = some a) :
    run c (sched.take (n + 1)) = step (run c (sched.take n)) a := by
  rw [List.take_succ, h]
  unfold run
  rw [List.foldl_append]
  rfl

/-- Ghost crossings only grow along a step. -/
theorem crossings_step_le (c : Config) (i : Nat) : c.crossings ≤ (step c i).crossings := by
  rcases hth : c.ths[i]? with _ | t
  · rw [step_none c i hth]
  · cases t with
    | inc => rw [step_inc c i hth]
    | incDone b => rw [step_incDone c i b hth]
    | dec =>
      rw [step_dec c i hth]
      simp only
      omega
    | decAt s =>
      cases s with
      | cas1 => rw [step_cas1 c i hth]
      | cas2 v => rw [step_cas2 c i v hth]
      | ret b => rw [step_decRet c i b hth]
    | rd => rw [step_rd c i hth]
    | rdAt s =>
      cases s with
      | rcas => rw [step_rcas c i hth]
      | ret r => rw [step_rdRet c i r hth]

/-- Ghost crossings only grow along a run. -/
theorem crossings_run_le (c : Config) (l : List Nat) :
    c.crossings ≤ (run c l).crossings := by
  induction l generalizing c with
  | nil => exact Nat.le_refl _
  | cons a l ih =>
    calc c.crossings ≤ (step c a).crossings := crossings_step_le c a
    _ ≤ (run (step c a) l).crossings := ih (step c a)

/-- Running a schedule splits at a prefix. -/
theorem run_take_drop (c : Config) (l : List Nat) (n : Nat) :
    run c l = run (run c (l.take n)) (l.drop n) := by
  conv_lhs => rw [← List.take_append_drop n l]
  unfold run
  rw [List.foldl_append]

/-! ### Arithmetic helpers for word updates -/

theorem pow62_pos : 0 < 2 ^ 62 := by norm_num

theorem sub_one_mod (w : Nat) (h1 : 1 ≤ w) (h2 : w < M) : (w + (M - 1)) % M = w - 1 := by
  rw [M_eq] at h2 ⊢
  omega

theorem decSub_word (w : Nat) : (decSub w).2 = (w + (M - 1)) % M := by
  unfold decSub
  split <;> rfl

theorem rdLoad_word (w : Nat) : (rdLoad w).2 = w := by
  unfold rdLoad
  split <;> rfl

/-! ### Preservation of the no-crossing invariant -/

theorem noCross_step (c : Config) (i : Nat) (hinv : NoCross c)
    (hS' : numSubs (step c i) ≤ numAdds (step c i) + 1)
    (hO' : numAdds (step c i) + 2 ≤ numSubs (step c i) + 2 ^ 62)
    (hc : c.crossings = 0) (hcr : (step c i).crossings = 0) :
    NoCross (step c i) := by
  obtain ⟨bal, wpos, mids⟩ := hinv
  rcases hth : c.ths[i]? with _ | t
  · rw [step_none c i hth]
    exact ⟨bal, wpos, mids⟩
  · have hmem : t ∈ c.ths := List.getElem?_mem hth
    cases t with
    | incDone b =>
      rw [step_incDone c i b hth]
      exact ⟨bal, wpos, mids⟩
    | decAt s =>
      cases s with
      | cas1 => exact absurd (mids _ hmem) (by simp [notMid])
      | cas2 v => exact absurd (mids _ hmem) (by simp [notMid])
      | ret b =>
        rw [step_decRet c i b hth]
        exact ⟨bal, wpos, mids⟩
    | rdAt s =>
      cases s with
      | rcas => exact absurd (mids _ hmem) (by simp [notMid])
      | ret r =>
        rw [step_rdRet c i r hth]
        exact ⟨bal, wpos, mids⟩
    | inc =>
      have hA : numAdds (step c i) = numAdds c + 1 := by
        rw [step_inc c i hth]
        exact addsOf_set_add c.ths i Th.inc (Th.incDone (incOp c.word).1) hth rfl rfl
      have hSn : numSubs (step c i) = numSubs c := by
        rw [step_inc c i hth]
        exact subsOf_set_eq c.ths i Th.inc (Th.incDone (incOp c.word).1) hth rfl
      have hlt : c.word + 1 < M := by
        rw [hA, hSn] at hO'
        rw [M_eq]
        have h62 : (2 : Nat) ^ 62 = 4611686018427387904 := by norm_num
        rw [h62] at hO'
        omega
      have hw2 : (step c i).word = c.word + 1 := by
        rw [step_inc c i hth]
        show (c.word + 1) % M = c.word + 1
        exact Nat.mod_eq_of_lt hlt
      refine ⟨?_, ?_, ?_⟩
      · rw [hw2, hA, hSn]
        omega
      · rw [hw2]
        omega
      · rw [step_inc c i hth]
        intro t htmem
        rcases List.mem_or_eq_of_mem_set htmem with hm | he
        · exact mids t hm
        · subst he
          rfl
    | dec =>
      have hA : numAdds (step c i) = numAdds c := by
        rw [step_dec c i hth]
        exact addsOf_set_eq c.ths i Th.dec (Th.decAt (decSub c.word).1) hth rfl
      have hSn : numSubs (step c i) = numSubs c + 1 := by
        rw [step_dec c i hth]
        exact subsOf_set_add c.ths i Th.dec (Th.decAt (decSub c.word).1) hth rfl rfl
      by_cases h1 : c.word = 1
      · exfalso
        have hcc : (step c i).crossings = c.crossings + 1 := by
          rw [step_dec c i hth]
          simp [h1]
        omega
      · have hlt : c.word < M := by
          rw [hA, hSn] at hO'
          rw [M_eq]
          have h62 : (2 : Nat) ^ 62 = 4611686018427387904 := by norm_num
          rw [h62] at hO'
          omega
        have hw2 : (step c i).word = c.word - 1 := by
          rw [step_dec c i hth]
          show (decSub c.word).2 = c.word - 1
          rw [decSub_word]
          exact sub_one_mod c.word wpos hlt
        refine ⟨?_, ?_, ?_⟩
        · rw [hw2, hA, hSn]
          omega
        · rw [hw2]
          omega
        · rw [step_dec c i hth]
          intro t htmem
          rcases List.mem_or_eq_of_mem_set htmem with hm | he
          · exact mids t hm
          · subst he
            show notMid (Th.decAt (decSub c.word).1) = true
            unfold decSub
            simp [h1, notMid]
    | rd =>
      have hA : numAdds (step c i) = numAdds c := by
        rw [step_rd c i hth]
        exact addsOf_set_eq c.ths i Th.rd (Th.rdAt (rdLoad c.word).1) hth rfl
      have hSn : numSubs (step c i) = numSubs c := by
        rw [step_rd c i hth]
        exact subsOf_set_eq c.ths i Th.rd (Th.rdAt (rdLoad c.word).1) hth rfl
      have h0 : c.word ≠ 0 := by omega
      have hw2 : (step c i).word = c.word := by
        rw [step_rd c i hth]
        show (rdLoad c.word).2 = c.word
        exact rdLoad_word c.word
      refine ⟨?_, ?_, ?_⟩
      · rw [hw2, hA, hSn]
        exact bal
      · rw [hw2]
        exact wpos
      · rw [step_rd c i hth]
        intro t htmem
        rcases List.mem_or_eq_of_mem_set htmem with hm | he
        · exact mids t hm
        · subst he
          show notMid (Th.rdAt (rdLoad c.word).1) = true
          unfold rdLoad
          simp [h0, notMid]

/-- With no crossing recorded, every start configuration satisfies the
invariant. -/
theorem noCross_init (ops : List Th) (hops : Start ops) : NoCross (init ops) := by
  have hs : subsOf ops = 0 := by
    unfold subsOf
    rw [List.countP_eq_zero]
    intro t ht
    rcases hops t ht with h | h | h <;> subst h <;> simp [isSubbed]
  have ha : addsOf ops = 0 := by
    unfold addsOf
    rw [List.countP_eq_zero]
    intro t ht
    rcases hops t ht with h | h | h <;> subst h <;> simp [isAdded]
  refine ⟨?_, ?_, ?_⟩
  · show (1 : Nat) + subsOf ops = 1 + addsOf ops
    rw [hs, ha]
  · exact Nat.le_refl 1
  · intro t ht
    rcases hops t ht with h | h | h <;> subst h <;> rfl

/-- Crossings recorded at a prefix are bounded by those of the whole
schedule. -/
theorem crossings_take_le (c : Config) (sched : List Nat) (n : Nat) :
    (run c (sched.take n)).crossings ≤ (run c sched).crossings := by
  rw [run_take_drop c sched n]
  exact crossings_run_le _ _

/-- The no-crossing invariant holds at every prefix of a
contract-respecting execution with no crossing. -/
theorem noCross_run (ops : List Th) (sched : List Nat) (hops : Start ops)
    (hC : Contract ops sched) (hO : NoOverflow ops sched)
    (hcr : (run (init ops) sched).crossings = 0) :
    ∀ n, n ≤ sched.length → NoCross (run (init ops) (sched.take n)) := by
  intro n
  induction n with
  | zero =>
    intro _
    rw [List.take_zero]
    exact noCross_init ops hops
  | succ m ih =>
    intro hm1
    have hm : m ≤ sched.length := Nat.le_of_succ_le hm1
    have hmlt : m < sched.length := hm1
    have ha : sched[m]? = some (sched.get ⟨m, hmlt⟩) := by
      simp [List.getElem?_eq_getElem hmlt]
    have hstep := run_take_succ (init ops) sched m _ ha
    have hc_m : (run (init ops) (sched.take m)).crossings = 0 := by
      have := crossings_take_le (init ops) sched m
      omega
    have hc_m1 : (run (init ops) (sched.take (m + 1))).crossings = 0 := by
      have := crossings_take_le (init ops) sched (m + 1)
      omega
    rw [hstep]
    rw [hstep] at hc_m1
    have hS' := hC (m + 1) hm1
    have hO' := hO (m + 1) hm1
    rw [hstep] at hS' hO'
    exact noCross_step _ _ (ih hm) hS' hO' hc_m hc_m1

/-! ### Helpers for the death invariant -/

theorem M_pos : 0 < M := by
  rw [M_eq]
  omega

theorem lor_help_ne_zero (v : Nat) : v ||| help ≠ 0 := by
  intro h
  have hb : (v ||| help).testBit 62 = false := by
    rw [h]
    exact Nat.zero_testBit 62
  rw [Nat.testBit_lor] at hb
  have ht : help.testBit 62 = true := Nat.testBit_two_pow_self
  rw [ht] at hb
  simp at hb

theorem decCas1_zero : decCas1 0 = (DecSt.ret true, is_zero) := by
  simp [decCas1]

theorem decCas1_ne (w : Nat) (h : w ≠ 0) : decCas1 w = (DecSt.cas2 w, w) := by
  simp [decCas1, h]

theorem decCas2_win (v : Nat) : decCas2 v v = (DecSt.ret true, is_zero) := by
  simp [decCas2, lor_help_ne_zero v]

theorem decCas2_fail (v w : Nat) (h : w ≠ v) : decCas2 v w = (DecSt.ret false, w) := by
  unfold decCas2
  simp [lor_help_ne_zero v, h]

theorem rdCas_zero : rdCas 0 = (RdSt.ret 0, is_zero ||| help) := by
  simp [rdCas]

theorem rdCas_ne (w : Nat) (h : w ≠ 0) :
    rdCas w = (RdSt.ret (if w &&& is_zero ≠ 0 then 0 else w), w) := by
  simp [rdCas, h]

/-- Position of the word after the first death compare-and-swap: it
stays within a window of width below 2 ^ 62 around the installed base,
so it is never 0 again, and when the base is `is_zero` it can never be
`is_zero ||| help`. -/
theorem post_death_position (c : Config) (hpd : PostDeath c) (hw : c.word < M)
    (hS : numSubs c ≤ numAdds c + 1) (hO : numAdds c + 2 ≤ numSubs c + 2 ^ 62) :
    c.word ≠ 0 ∧ (c.baseW = is_zero → c.word ≠ is_zero ||| help) := by
  obtain ⟨h1, h2, h3, h4, heq, hbase, _, _⟩ := hpd
  have heq' : (c.word + (numSubs c - c.subs0)) % M =
      (c.baseW + (numAdds c - c.adds0)) % M := heq
  have h62 : (2 : Nat) ^ 62 = 4611686018427387904 := by norm_num
  rw [h62] at hO h4
  rw [M_eq] at heq' hw
  rcases hbase with hb | hb
  · rw [hb, is_zero_eq] at heq'
    refine ⟨?_, ?_⟩
    · omega
    · intro _
      rw [izh_eq]
      omega
  · rw [hb, izh_eq] at heq'
    refine ⟨?_, ?_⟩
    · omega
    · intro hb2
      rw [hb] at hb2
      rw [izh_eq, is_zero_eq] at hb2
      omega

/-- DeathInv transports along configurations with equal word, counts
and ghosts. -/
theorem deathInv_congr (c c' : Config) (hinv : DeathInv c)
    (hw : c'.word = c.word) (hS : numSubs c' = numSubs c) (hA : numAdds c' = numAdds c)
    (hd : c'.deaths = c.deaths) (hh : c'.helpWins = c.helpWins)
    (hb : c'.baseW = c.baseW) (ha0 : c'.adds0 = c.adds0) (hs0 : c'.subs0 = c.subs0) :
    DeathInv c' := by
  obtain ⟨wlt, pre, post⟩ := hinv
  refine ⟨?_, ?_, ?_⟩
  · rw [hw]
    exact wlt
  · intro h0
    rw [hd] at h0
    obtain ⟨b1, b2⟩ := pre h0
    rw [hw, hS, hA, hh]
    exact ⟨b1, b2⟩
  · intro hne
    rw [hd] at hne
    obtain ⟨p1, p2, p3, p4, p5, p6, p7, p8⟩ := post hne
    refine ⟨?_, ?_, ?_, ?_, ?_, ?_, ?_, ?_⟩
    · rw [ha0, hA]; exact p1
    · rw [hs0, hS]; exact p2
    · rw [hs0, ha0]; exact p3
    · rw [ha0, hs0]; exact p4
    · rw [hw, hS, hA, hb, ha0, hs0]; exact p5
    · rw [hb]; exact p6
    · rw [hh]; exact p7
    · rw [hh, hb]; exact p8

/-- Preservation of the death invariant along one machine step. -/
theorem deathInv_step (c : Config) (i : Nat) (hinv : DeathInv c)
    (hS : numSubs c ≤ numAdds c + 1) (hO : numAdds c + 2 ≤ numSubs c + 2 ^ 62)
    (hS' : numSubs (step c i) ≤ numAdds (step c i) + 1)
    (hO' : numAdds (step c i) + 2 ≤ numSubs (step c i) + 2 ^ 62) :
    DeathInv (step c i) := by
  have h62 : (2 : Nat) ^ 62 = 4611686018427387904 := by norm_num
  rcases hth : c.ths[i]? with _ | t
  · rw [step_none c i hth]
    exact hinv
  · cases t with
    | incDone b =>
      rw [step_incDone c i b hth]
      exact hinv
    | inc =>
      have hA : numAdds (step c i) = numAdds c + 1 := by
        rw [step_inc c i hth]
        exact addsOf_set_add c.ths i Th.inc (Th.incDone (incOp c.word).1) hth rfl rfl
      have hSn : numSubs (step c i) = numSubs c := by
        rw [step_inc c i hth]
        exact subsOf_set_eq c.ths i Th.inc (Th.incDone (incOp c.word).1) hth rfl
      have hword : (step c i).word = (c.word + 1) % M := by
        rw [step_inc c i hth]
        rfl
      have hd : (step c i).deaths = c.deaths := by rw [step_inc c i hth]
      have hh : (step c i).helpWins = c.helpWins := by rw [step_inc c i hth]
      have hb : (step c i).baseW = c.baseW := by rw [step_inc c i hth]
      have ha0 : (step c i).adds0 = c.adds0 := by rw [step_inc c i hth]
      have hs0 : (step c i).subs0 = c.subs0 := by rw [step_inc c i hth]
      obtain ⟨wlt, pre, post⟩ := hinv
      refine ⟨?_, ?_, ?_⟩
      · rw [hword]
        exact Nat.mod_lt _ M_pos
      · intro h0
        rw [hd] at h0
        obtain ⟨bal, hw0⟩ := pre h0
        rw [hword, hA, hSn, hh]
        refine ⟨?_, hw0⟩
        have hlt : c.word + 1 < M := by
          rw [hA, hSn, h62] at hO'
          rw [M_eq]
          omega
        rw [Nat.mod_eq_of_lt hlt]
        omega
      · intro hne
        rw [hd] at hne
        obtain ⟨p1, p2, p3, p4, p5, p6, p7, p8⟩ := post hne
        have p5' : (c.word + (numSubs c - c.subs0)) % M =
            (c.baseW + (numAdds c - c.adds0)) % M := p5
        refine ⟨?_, ?_, ?_, ?_, ?_, ?_, ?_, ?_⟩
        · rw [ha0, hA]
          omega
        · rw [hs0, hSn]
          exact p2
        · rw [hs0, ha0]
          exact p3
        · rw [ha0, hs0]
          exact p4
        · show ((step c i).word + (numSubs (step c i) - (step c i).subs0)) % M =
            ((step c i).baseW + (numAdds (step c i) - (step c i).adds0)) % M
          rw [hword, hSn, hs0, hb, hA, ha0]
          rw [M_eq] at p5' ⊢
          omega
        · rw [hb]
          exact p6
        · rw [hh]
          exact p7
        · rw [hh, hb]
          exact p8
    | dec =>
      have hA : numAdds (step c i) = numAdds c := by
        rw [step_dec c i hth]
        exact addsOf_set_eq c.ths i Th.dec (Th.decAt (decSub c.word).1) hth rfl
      have hSn : numSubs (step c i) = numSubs c + 1 := by
        rw [step_dec c i hth]
        exact subsOf_set_add c.ths i Th.dec (Th.decAt (decSub c.word).1) hth rfl rfl
      have hword : (step c i).word = (c.word + (M - 1)) % M := by
        rw [step_dec c i hth]
        show (decSub c.word).2 = (c.word + (M - 1)) % M
        exact decSub_word c.word
      have hd : (step c i).deaths = c.deaths := by rw [step_dec c i hth]
      have hh : (step c i).helpWins = c.helpWins := by rw [step_dec c i hth]
      have hb : (step c i).baseW = c.baseW := by rw [step_dec c i hth]
      have ha0 : (step c i).adds0 = c.adds0 := by rw [step_dec c i hth]
      have hs0 : (step c i).subs0 = c.subs0 := by rw [step_dec c i hth]
      obtain ⟨wlt, pre, post⟩ := hinv
      refine ⟨?_, ?_, ?_⟩
      · rw [hword]
        exact Nat.mod_lt _ M_pos
      · intro h0
        rw [hd] at h0
        obtain ⟨bal, hw0⟩ := pre h0
        have hwpos : 1 ≤ c.word := by
          rw [hA, hSn] at hS'
          omega
        rw [hword, hA, hSn, hh, sub_one_mod c.word hwpos wlt]
        refine ⟨?_, hw0⟩
        omega
      · intro hne
        rw [hd] at hne
        obtain ⟨p1, p2, p3, p4, p5, p6, p7, p8⟩ := post hne
        have p5' : (c.word + (numSubs c - c.subs0)) % M =
            (c.baseW + (numAdds c - c.adds0)) % M := p5
        refine ⟨?_, ?_, ?_, ?_, ?_, ?_, ?_, ?_⟩
        · rw [ha0, hA]
          exact p1
        · rw [hs0, hSn]
          omega
        · rw [hs0, ha0]
          exact p3
        · rw [ha0, hs0]
          exact p4
        · show ((step c i).word + (numSubs (step c i) - (step c i).subs0)) % M =
            ((step c i).baseW + (numAdds (step c i) - (step c i).adds0)) % M
          rw [hword, hSn, hs0, hb, hA, ha0]
          rw [M_eq] at p5' ⊢
          have hwM : c.word < 18446744073709551616 := by
            rw [M_eq] at wlt
            exact wlt
          omega
        · rw [hb]
          exact p6
        · rw [hh]
          exact p7
        · rw [hh, hb]
          exact p8
    | decAt s =>
      cases s with
      | ret b =>
        rw [step_decRet c i b hth]
        exact hinv
      | cas1 =>
        have hA : numAdds (step c i) = numAdds c := by
          rw [step_cas1 c i hth]
          exact addsOf_set_eq c.ths i _ (Th.decAt (decCas1 c.word).1) hth rfl
        have hSn : numSubs (step c i) = numSubs c := by
          rw [step_cas1 c i hth]
          exact subsOf_set_eq c.ths i _ (Th.decAt (decCas1 c.word).1) hth rfl
        by_cases hz : c.word = 0
        · have hword : (step c i).word = is_zero := by
            rw [step_cas1 c i hth]
            show (decCas1 c.word).2 = is_zero
            rw [hz, decCas1_zero]
          have hd : (step c i).deaths = c.deaths + 1 := by
            rw [step_cas1 c i hth]
            simp [hz]
          have hh : (step c i).helpWins = c.helpWins := by rw [step_cas1 c i hth]
          have hb : (step c i).baseW = is_zero := by
            rw [step_cas1 c i hth]
            simp [hz]
          have ha0 : (step c i).adds0 = numAdds c := by
            rw [step_cas1 c i hth]
            simp [hz]
          have hs0 : (step c i).subs0 = numSubs c := by
            rw [step_cas1 c i hth]
            simp [hz]
          obtain ⟨wlt, pre, post⟩ := hinv
          refine ⟨?_, ?_, ?_⟩
          · rw [hword, is_zero_eq, M_eq]
            omega
          · intro h0
            rw [hd] at h0
            omega
          · intro _
            refine ⟨?_, ?_, ?_, ?_, ?_, ?_, ?_, ?_⟩
            · rw [ha0, hA]
            · rw [hs0, hSn]
            · rw [hs0, ha0]
              exact hS
            · rw [ha0, hs0]
              exact hO
            · show ((step c i).word + (numSubs (step c i) - (step c i).subs0)) % M =
                ((step c i).baseW + (numAdds (step c i) - (step c i).adds0)) % M
              rw [hword, hSn, hs0, hb, hA, ha0]
              simp
            · rw [hb]
              left
              rfl
            · rw [hh]
              by_cases hd0 : c.deaths = 0
              · have := (pre hd0).2
                omega
              · exact (post hd0).hw_le
            · intro _
              rw [hb]
        · apply deathInv_congr c _ hinv
          · rw [step_cas1 c i hth]
            show (decCas1 c.word).2 = c.word
            rw [decCas1_ne c.word hz]
          · exact hSn
          · exact hA
          · rw [step_cas1 c i hth]
            simp [hz]
          · rw [step_cas1 c i hth]
          · rw [step_cas1 c i hth]
            simp [hz]
          · rw [step_cas1 c i hth]
            simp [hz]
          · rw [step_cas1 c i hth]
            simp [hz]
      | cas2 v =>
        have hA : numAdds (step c i) = numAdds c := by
          rw [step_cas2 c i v hth]
          exact addsOf_set_eq c.ths i _ (Th.decAt (decCas2 v c.word).1) hth rfl
        have hSn : numSubs (step c i) = numSubs c := by
          rw [step_cas2 c i v hth]
          exact subsOf_set_eq c.ths i _ (Th.decAt (decCas2 v c.word).1) hth rfl
        by_cases hwv : c.word = v
        · have hword : (step c i).word = is_zero := by
            rw [step_cas2 c i v hth]
            show (decCas2 v c.word).2 = is_zero
            rw [hwv, decCas2_win v]
          have hd : (step c i).deaths = c.deaths + 1 := by
            rw [step_cas2 c i v hth]
            simp [hwv, lor_help_ne_zero]
          have hb : (step c i).baseW = is_zero := by
            rw [step_cas2 c i v hth]
            simp [hwv, lor_help_ne_zero]
          have ha0 : (step c i).adds0 = numAdds c := by
            rw [step_cas2 c i v hth]
            simp [hwv, lor_help_ne_zero]
          have hs0 : (step c i).subs0 = numSubs c := by
            rw [step_cas2 c i v hth]
            simp [hwv, lor_help_ne_zero]
          obtain ⟨wlt, pre, post⟩ := hinv
          have hWnew : (step c i).helpWins ≤ 1 ∧
              ((step c i).helpWins ≠ 0 → (step c i).baseW = is_zero) := by
            by_cases hviz : v = is_zero ||| help
            · have hword_izh : c.word = is_zero ||| help := by
                rw [hwv, hviz]
              have hW0 : c.helpWins = 0 := by
                by_cases hd0 : c.deaths = 0
                · exact (pre hd0).2
                · by_contra hWne
                  have hpd := post hd0
                  have hbase := hpd.hw_base hWne
                  have hpos := post_death_position c hpd wlt hS hO
                  exact (hpos.2 hbase) hword_izh
              have hh : (step c i).helpWins = c.helpWins + 1 := by
                rw [step_cas2 c i v hth]
                simp [hwv, hviz, lor_help_ne_zero]
              constructor
              · rw [hh, hW0]
              · intro _
                rw [hb]
            · have hh : (step c i).helpWins = c.helpWins := by
                rw [step_cas2 c i v hth]
                simp [hwv, hviz, lor_help_ne_zero]
              constructor
              · rw [hh]
                by_cases hd0 : c.deaths = 0
                · have := (pre hd0).2
                  omega
                · exact (post hd0).hw_le
              · intro _
                rw [hb]
          refine ⟨?_, ?_, ?_⟩
          · rw [hword, is_zero_eq, M_eq]
            omega
          · intro h0
            rw [hd] at h0
            omega
          · intro _
            refine ⟨?_, ?_, ?_, ?_, ?_, ?_, ?_, ?_⟩
            · rw [ha0, hA]
            · rw [hs0, hSn]
            · rw [hs0, ha0]
              exact hS
            · rw [ha0, hs0]
              exact hO
            · show ((step c i).word + (numSubs (step c i) - (step c i).subs0)) % M =
                ((step c i).baseW + (numAdds (step c i) - (step c i).adds0)) % M
              rw [hword, hSn, hs0, hb, hA, ha0]
              simp
            · rw [hb]
              left
              rfl
            · exact hWnew.1
            · exact hWnew.2
        · apply deathInv_congr c _ hinv
          · rw [step_cas2 c i v hth]
            show (decCas2 v c.word).2 = c.word
            rw [decCas2_fail v c.word hwv]
          · exact hSn
          · exact hA
          · rw [step_cas2 c i v hth]
            simp [hwv]
          · rw [step_cas2 c i v hth]
            simp [hwv]
          · rw [step_cas2 c i v hth]
            simp [hwv]
          · rw [step_cas2 c i v hth]
            simp [hwv]
          · rw [step_cas2 c i v hth]
            simp [hwv]
    | rd =>
      apply deathInv_congr c _ hinv
      · rw [step_rd c i hth]
        exact rdLoad_word c.word
      · rw [step_rd c i hth]
        exact subsOf_set_eq c.ths i _ (Th.rdAt (rdLoad c.word).1) hth rfl
      · rw [step_rd c i hth]
        exact addsOf_set_eq c.ths i _ (Th.rdAt (rdLoad c.word).1) hth rfl
      · rw [step_rd c i hth]
      · rw [step_rd c i hth]
      · rw [step_rd c i hth]
      · rw [step_rd c i hth]
      · rw [step_rd c i hth]
    | rdAt s =>
      cases s with
      | ret r =>
        rw [step_rdRet c i r hth]
        exact hinv
      | rcas =>
        have hA : numAdds (step c i) = numAdds c := by
          rw [step_rcas c i hth]
          exact addsOf_set_eq c.ths i _ (Th.rdAt (rdCas c.word).1) hth rfl
        have hSn : numSubs (step c i) = numSubs c := by
          rw [step_rcas c i hth]
          exact subsOf_set_eq c.ths i _ (Th.rdAt (rdCas c.word).1) hth rfl
        by_cases hz : c.word = 0
        · obtain ⟨wlt, pre, post⟩ := hinv
          by_cases hd0 : c.deaths = 0
          · have hW0 := (pre hd0).2
            have hword : (step c i).word = is_zero ||| help := by
              rw [step_rcas c i hth]
              show (rdCas c.word).2 = is_zero ||| help
              rw [hz, rdCas_zero]
            have hd : (step c i).deaths = c.deaths + 1 := by
              rw [step_rcas c i hth]
              simp [hz]
            have hh : (step c i).helpWins = c.helpWins := by rw [step_rcas c i hth]
            have hb : (step c i).baseW = is_zero ||| help := by
              rw [step_rcas c i hth]
              simp [hz]
            have ha0 : (step c i).adds0 = numAdds c := by
              rw [step_rcas c i hth]
              simp [hz]
            have hs0 : (step c i).subs0 = numSubs c := by
              rw [step_rcas c i hth]
              simp [hz]
            refine ⟨?_, ?_, ?_⟩
            · rw [hword, izh_eq, M_eq]
              omega
            · intro h0
              rw [hd] at h0
              omega
            · intro _
              refine ⟨?_, ?_, ?_, ?_, ?_, ?_, ?_, ?_⟩
              · rw [ha0, hA]
              · rw [hs0, hSn]
              · rw [hs0, ha0]
                exact hS
              · rw [ha0, hs0]
                exact hO
              · show ((step c i).word + (numSubs (step c i) - (step c i).subs0)) % M =
                  ((step c i).baseW + (numAdds (step c i) - (step c i).adds0)) % M
                rw [hword, hSn, hs0, hb, hA, ha0]
                simp
              · rw [hb]
                right
                rfl
              · rw [hh, hW0]
                omega
              · intro hne
                rw [hh, hW0] at hne
                exact absurd rfl hne
          · exfalso
            have hpd := post hd0
            have hpos := post_death_position c hpd wlt hS hO
            exact hpos.1 hz
        · apply deathInv_congr c _ hinv
          · rw [step_rcas c i hth]
            show (rdCas c.word).2 = c.word
            rw [rdCas_ne c.word hz]
          · exact hSn
          · exact hA
          · rw [step_rcas c i hth]
            simp [hz]
          · rw [step_rcas c i hth]
          · rw [step_rcas c i hth]
            simp [hz]
          · rw [step_rcas c i hth]
            simp [hz]
          · rw [step_rcas c i hth]
            simp [hz]

/-- The death invariant holds at every start configuration. -/
theorem deathInv_init (ops : List Th) (hops : Start ops) : DeathInv (init ops) := by
  have hs : subsOf ops = 0 := by
    unfold subsOf
    rw [List.countP_eq_zero]
    intro t ht
    rcases hops t ht with h | h | h <;> subst h <;> simp [isSubbed]
  have ha : addsOf ops = 0 := by
    unfold addsOf
    rw [List.countP_eq_zero]
    intro t ht
    rcases hops t ht with h | h | h <;> subst h <;> simp [isAdded]
  refine ⟨?_, ?_, ?_⟩
  · show (1 : Nat) < M
    rw [M_eq]
    omega
  · intro _
    constructor
    · show (1 : Nat) + subsOf ops = 1 + addsOf ops
      rw [hs, ha]
    · rfl
  · intro hne
    exact absurd rfl hne

/-- The death invariant holds at every prefix of a contract-respecting
execution. -/
theorem deathInv_run (ops : List Th) (sched : List Nat) (hops : Start ops)
    (hC : Contract ops sched) (hO : NoOverflow ops sched) :
    ∀ n, n ≤ sched.length → DeathInv (run (init ops) (sched.take n)) := by
  intro n
  induction n with
  | zero =>
    intro _
    rw [List.take_zero]
    exact deathInv_init ops hops
  | succ m ih =>
    intro hm1
    have hm : m ≤ sched.length := Nat.le_of_succ_le hm1
    have hmlt : m < sched.length := hm1
    have ha : sched[m]? = some (sched.get ⟨m, hmlt⟩) := by
      simp [List.getElem?_eq_getElem hmlt]
    have hstep := run_take_succ (init ops) sched m _ ha
    have hSm := hC m hm
    have hOm := hO m hm
    have hS' := hC (m + 1) hm1
    have hO' := hO (m + 1) hm1
    rw [hstep] at hS' hO'
    rw [hstep]
    exact deathInv_step _ _ (ih hm) hSm hOm hS' hO'

/-! ### C6: Increment -/

/-- C6.  For every state of the counter word, `Increment` atomically adds
one to it, and it returns `false` iff the dead flag bit was present in
the pre-increment snapshot of the word; otherwise it returns `true`. -/
theorem increment_adds_one_and_detects_dead (w : Nat) :
    (incOp w).2 = (w + 1) % M ∧
    ((incOp w).1 = false ↔ w &&& is_zero ≠ 0) ∧
    ((incOp w).1 = true ↔ w &&& is_zero = 0) := by
  refine ⟨rfl, ?_, ?_⟩ <;> simp [incOp]

/-! ### C7: Decrement with live count different from 1 -/

/-- C7.  Whenever the pre-subtraction live count is not exactly 1, the
`Decrement` call subtracts one from the word and returns `false`
immediately: it never enters a compare-and-swap. -/
theorem decrement_non_unit_returns_false (w : Nat) (h : liveCount w ≠ 1) :
    decSub w = (DecSt.ret false, (w + (M - 1)) % M) := by
  have hw : w ≠ 1 := by
    intro e
    subst e
    exact h (by decide)
  simp [decSub, hw]

/-- Witness for C7 at the concrete word 5. -/
theorem decrement_non_unit_returns_false_witness :
    liveCount 5 ≠ 1 ∧ decSub 5 = (DecSt.ret false, (5 + (M - 1)) % M) :=
  ⟨by decide, decrement_non_unit_returns_false 5 (by decide)⟩

/-! ### C10: Read writes nothing when its load is nonzero -/

/-- C10.  When `Read`'s initial atomic load returns a nonzero word the
call performs no write: it finishes at the load step and the word is
unchanged. -/
theorem read_nonzero_load_no_write (w : Nat) (h : w ≠ 0) :
    (rdLoad w).2 = w ∧
    (rdLoad w).1 = RdSt.ret (if w &&& is_zero ≠ 0 then 0 else w) := by
  simp [rdLoad, h]

/-- Witness for C10 at the concrete word 7. -/
theorem read_nonzero_load_no_write_witness :
    (7 : Nat) ≠ 0 ∧ (rdLoad 7).2 = 7 ∧
    (rdLoad 7).1 = RdSt.ret (if (7 : Nat) &&& is_zero ≠ 0 then 0 else 7) :=
  ⟨by decide, read_nonzero_load_no_write 7 (by decide)⟩

/-! ### C9: construction and the linear scenario -/

/-- C9.  Construction initializes the word to 1 (live count 1, both
flags clear), and the sequential sequence Read; Decrement; Read;
Increment; Read returns 1, true, 0, false, 0. -/
theorem linear_scenario :
    (init [Th.rd, Th.dec, Th.rd, Th.inc, Th.rd]).word = 1 ∧
    liveCount (init [Th.rd, Th.dec, Th.rd, Th.inc, Th.rd]).word = 1 ∧
    (init [Th.rd, Th.dec, Th.rd, Th.inc, Th.rd]).word &&& is_zero = 0 ∧
    (init [Th.rd, Th.dec, Th.rd, Th.inc, Th.rd]).word &&& help = 0 ∧
    (run (init [Th.rd, Th.dec, Th.rd, Th.inc, Th.rd]) [0, 1, 1, 2, 3, 4]).ths =
      [Th.rdAt (RdSt.ret 1), Th.decAt (DecSt.ret true), Th.rdAt (RdSt.ret 0),
       Th.incDone false, Th.rdAt (RdSt.ret 0)] := by
  decide

/-! ### C1: the single-winner property fails on the code -/

/-- C1 evaluated at the failing interleaving.  Two increments in total
(the implicit initial one plus one `Increment` call) and two `Decrement`
calls, all completed, under the caller contract; yet both decrements
return `true`.  Schedule: D1 fetch_sub (1 to 0); I1 fetch_add (0 to 1);
D2 fetch_sub (1 to 0); D1 first CAS succeeds (word becomes is_zero);
D2 first CAS fails with refreshed value is_zero; D2 second CAS has the
always-true guard `(v | help)` and succeeds trivially (is_zero to
is_zero), so D2 also returns `true`. -/
theorem two_decrements_return_true :
    Contract [Th.dec, Th.inc, Th.dec] [0, 1, 2, 0, 2, 2] ∧
    NoOverflow [Th.dec, Th.inc, Th.dec] [0, 1, 2, 0, 2, 2] ∧
    (run (init [Th.dec, Th.inc, Th.dec]) [0, 1, 2, 0, 2, 2]).ths =
      [Th.decAt (DecSt.ret true), Th.incDone true, Th.decAt (DecSt.ret true)] := by
  decide

/-! ### C2: stickiness fails on the code -/

/-- C2 evaluated at the failing interleaving.  Contract-respecting
execution with three increments in total (implicit initial plus I1, I2)
and three decrements: D2's subtraction crosses zero; I2 revives the
word to 1; D2's second CAS (the always-true guard) swaps the clean 1
for is_zero and returns true, destroying I2's increment; R1 then reads
0; D3's fetch_sub carries a borrow into bit 63 and clears the dead
flag; R2 then reads the nonzero word is_zero - 1.  So the dead flag is
cleared after being set, and a Read returns nonzero after a Read
returned 0. -/
theorem stickiness_violated :
    Contract [Th.inc, Th.inc, Th.dec, Th.dec, Th.dec, Th.rd, Th.rd]
      [0, 2, 3, 1, 3, 3, 5, 4, 6] ∧
    NoOverflow [Th.inc, Th.inc, Th.dec, Th.dec, Th.dec, Th.rd, Th.rd]
      [0, 2, 3, 1, 3, 3, 5, 4, 6] ∧
    (run (init [Th.inc, Th.inc, Th.dec, Th.dec, Th.dec, Th.rd, Th.rd])
      (List.take 6 [0, 2, 3, 1, 3, 3, 5, 4, 6])).word = is_zero ∧
    (run (init [Th.inc, Th.inc, Th.dec, Th.dec, Th.dec, Th.rd, Th.rd])
      (List.take 7 [0, 2, 3, 1, 3, 3, 5, 4, 6])).ths[5]? =
        some (Th.rdAt (RdSt.ret 0)) ∧
    (run (init [Th.inc, Th.inc, Th.dec, Th.dec, Th.dec, Th.rd, Th.rd])
      (List.take 7 [0, 2, 3, 1, 3, 3, 5, 4, 6])).ths[6]? = some Th.rd ∧
    (run (init [Th.inc, Th.inc, Th.dec, Th.dec, Th.dec, Th.rd, Th.rd])
      (List.take 8 [0, 2, 3, 1, 3, 3, 5, 4, 6])).word &&& is_zero = 0 ∧
    (run (init [Th.inc, Th.inc, Th.dec, Th.dec, Th.dec, Th.rd, Th.rd])
      [0, 2, 3, 1, 3, 3, 5, 4, 6]).ths[6]? =
        some (Th.rdAt (RdSt.ret (is_zero - 1))) ∧
    is_zero - 1 ≠ 0 := by
  decide

/-! ### C4: a revived Decrement still returns true -/

/-- C4 evaluated at the failing interleaving.  D's subtraction takes the
live count from 1 to 0; a concurrent `Increment` bumps the word back to
the clean nonzero count 1 before D's first CAS; the first CAS fails and
D observes the clean count 1 (dead flag and assist flag both clear);
the claim says D must now return `false`, but the always-true guard
`(v | help)` lets D's second CAS swap 1 for is_zero, and D returns
`true`. -/
theorem revived_decrement_returns_true :
    Contract [Th.dec, Th.inc] [0, 1, 0, 0] ∧
    NoOverflow [Th.dec, Th.inc] [0, 1, 0, 0] ∧
    (run (init [Th.dec, Th.inc]) (List.take 3 [0, 1, 0, 0])).ths[0]? =
      some (Th.decAt (DecSt.cas2 1)) ∧
    (1 : Nat) &&& is_zero = 0 ∧ (1 : Nat) &&& help = 0 ∧ (1 : Nat) ≠ 0 ∧
    (run (init [Th.dec, Th.inc]) [0, 1, 0, 0]).ths[0]? =
      some (Th.decAt (DecSt.ret true)) := by
  decide

/-! ### C8: the Read branch description -/

/-- Counterexample to C8 as stated, at a concrete contract-respecting
interleaving.  A `Read` loads a clean zero and reaches its
compare-and-swap; meanwhile an increment revives the word, a
`Decrement`'s second CAS kills it again (word is_zero), and another
decrement's fetch_sub borrows the dead flag away, leaving the word
is_zero - 1 (assist flag set, dead flag clear, live count 2^62 - 1).
The `Read`'s CAS then fails, the refreshed word has the dead flag
clear, and yet the call returns the whole word is_zero - 1, not the
live count. -/
theorem read_cas_fail_not_live_count :
    Contract [Th.inc, Th.inc, Th.dec, Th.dec, Th.dec, Th.rd]
      [0, 2, 3, 5, 1, 3, 3, 4, 5] ∧
    NoOverflow [Th.inc, Th.inc, Th.dec, Th.dec, Th.dec, Th.rd]
      [0, 2, 3, 5, 1, 3, 3, 4, 5] ∧
    (run (init [Th.inc, Th.inc, Th.dec, Th.dec, Th.dec, Th.rd])
      (List.take 4 [0, 2, 3, 5, 1, 3, 3, 4, 5])).ths[5]? =
        some (Th.rdAt RdSt.rcas) ∧
    (run (init [Th.inc, Th.inc, Th.dec, Th.dec, Th.dec, Th.rd])
      (List.take 8 [0, 2, 3, 5, 1, 3, 3, 4, 5])).word = is_zero - 1 ∧
    (is_zero - 1) &&& is_zero = 0 ∧
    liveCount (is_zero - 1) = help - 1 ∧
    (run (init [Th.inc, Th.inc, Th.dec, Th.dec, Th.dec, Th.rd])
      [0, 2, 3, 5, 1, 3, 3, 4, 5]).ths[5]? =
        some (Th.rdAt (RdSt.ret (is_zero - 1))) ∧
    is_zero - 1 ≠ help - 1 := by
  decide

/-- C8 as amended.  `Read` returns the loaded value as-is when the
initial load shows a nonzero word without the dead flag; on a clean
zero it attempts one CAS from clean zero to dead-plus-assist and
returns 0 on success; when that attempt fails it returns 0 if the dead
flag is present in the refreshed word and the refreshed word itself
otherwise, which equals the live count whenever the assist flag is
also clear. -/
theorem read_branch_behaviour (w : Nat) (hM : w < M) (h0 : w ≠ 0) :
    (w &&& is_zero = 0 → rdLoad w = (RdSt.ret w, w)) ∧
    rdLoad 0 = (RdSt.rcas, 0) ∧
    rdCas 0 = (RdSt.ret 0, is_zero ||| help) ∧
    (w &&& is_zero ≠ 0 → rdCas w = (RdSt.ret 0, w)) ∧
    (w &&& is_zero = 0 → rdCas w = (RdSt.ret w, w)) ∧
    (w &&& is_zero = 0 → w &&& help = 0 → rdCas w = (RdSt.ret (liveCount w), w)) := by
  refine ⟨?_, by decide, by decide, ?_, ?_, ?_⟩
  · intro hd
    simp [rdLoad, h0, hd]
  · intro hd
    simp [rdCas, h0, hd]
  · intro hd
    simp [rdCas, h0, hd]
  · intro hd ha
    have h63 : w < 2 ^ 63 := lt_pow_of_and_eq_zero w 63 hM hd
    have h62 : w < 2 ^ 62 := lt_pow_of_and_eq_zero w 62 h63 ha
    have hl : liveCount w = w := Nat.mod_eq_of_lt h62
    rw [hl]
    simp [rdCas, h0, hd]

/-- Witness for the amended C8 at the concrete word 5. -/
theorem read_branch_behaviour_witness :
    (5 : Nat) < M ∧ (5 : Nat) ≠ 0 ∧
    ((5 : Nat) &&& is_zero = 0 → rdLoad 5 = (RdSt.ret 5, 5)) :=
  ⟨by decide, by decide, (read_branch_behaviour 5 (by decide) (by decide)).1⟩

/-! ### C3: no premature death -/

/-- C3.  In every contract-respecting execution in which no
`Decrement`'s subtraction has driven the live count to 0 (no zero
crossing) and the outstanding ownership count (one implicit increment
plus completed increments minus started decrements) is strictly
positive, a `Read` at the reached state returns a nonzero value: its
initial load sees the nonzero, flag-free word and returns it as-is. -/
theorem no_premature_death (ops : List Th) (sched : List Nat)
    (hops : Start ops) (hC : Contract ops sched) (hO : NoOverflow ops sched)
    (hcr : (run (init ops) sched).crossings = 0)
    (hpos : numSubs (run (init ops) sched) < 1 + numAdds (run (init ops) sched)) :
    (run (init ops) sched).word ≠ 0 ∧
    rdLoad (run (init ops) sched).word =
      (RdSt.ret (run (init ops) sched).word, (run (init ops) sched).word) := by
  have hnc := noCross_run ops sched hops hC hO hcr sched.length (Nat.le_refl _)
  rw [List.take_length] at hnc
  obtain ⟨bal, wpos, _⟩ := hnc
  have hOn := hO sched.length (Nat.le_refl _)
  rw [List.take_length] at hOn
  have hlt : (run (init ops) sched).word < 2 ^ 63 := by
    have h62 : (2 : Nat) ^ 62 = 4611686018427387904 := by norm_num
    have h63 : (2 : Nat) ^ 63 = 9223372036854775808 := by norm_num
    rw [h62] at hOn
    rw [h63]
    omega
  have h0 : (run (init ops) sched).word ≠ 0 := by omega
  have hand : (run (init ops) sched).word &&& is_zero = 0 :=
    and_pow_eq_zero_of_lt _ 63 hlt
  refine ⟨h0, ?_⟩
  unfold rdLoad
  simp [h0, hand]

/-- Witness for C3: one completed `Increment` and one pending
`Decrement`; the final word is 2 and a `Read` there returns 2. -/
theorem no_premature_death_witness :
    (run (init [Th.inc, Th.dec]) [0]).word ≠ 0 ∧
    rdLoad (run (init [Th.inc, Th.dec]) [0]).word =
      (RdSt.ret (run (init [Th.inc, Th.dec]) [0]).word,
       (run (init [Th.inc, Th.dec]) [0]).word) :=
  no_premature_death [Th.inc, Th.dec] [0] (by decide) (by decide) (by decide)
    (by decide) (by decide)

/-! ### C5: the assist flag is consumed exactly once -/

/-- C5.  In every contract-respecting execution, at most one `Decrement`
wins the second compare-and-swap against the zero-with-assist word:
`helpWins` counts exactly the successful second compare-and-swaps of
`Decrement` whose expected value is `is_zero ||| help`, and it never
exceeds 1.  Moreover a `Decrement` whose first compare-and-swap fails
against the word `is_zero ||| help` proceeds to the second
compare-and-swap with that expected value, and the winner's swap clears
the assist flag while keeping the dead flag set and makes the call
return `true`. -/
theorem assist_consumed_once (ops : List Th) (sched : List Nat)
    (hops : Start ops) (hC : Contract ops sched) (hO : NoOverflow ops sched) :
    (run (init ops) sched).helpWins ≤ 1 ∧
    decCas1 (is_zero ||| help) = (DecSt.cas2 (is_zero ||| help), is_zero ||| help) ∧
    decCas2 (is_zero ||| help) (is_zero ||| help) = (DecSt.ret true, is_zero) := by
  refine ⟨?_, ?_, ?_⟩
  · have hinv := deathInv_run ops sched hops hC hO sched.length (Nat.le_refl _)
    rw [List.take_length] at hinv
    obtain ⟨_, pre, post⟩ := hinv
    by_cases hd0 : (run (init ops) sched).deaths = 0
    · have := (pre hd0).2
      omega
    · exact (post hd0).hw_le
  · exact decCas1_ne _ (lor_help_ne_zero is_zero)
  · exact decCas2_win _

/-- Witness for C5: a run in which a `Read` files the assist request and
the pending `Decrement` consumes it: sub; load 0; read CAS installs
dead+assist; first CAS fails; second CAS wins. -/
theorem assist_consumed_once_witness :
    Start [Th.dec, Th.rd] ∧ Contract [Th.dec, Th.rd] [0, 1, 1, 0, 0] ∧
    NoOverflow [Th.dec, Th.rd] [0, 1, 1, 0, 0] ∧
    ((run (init [Th.dec, Th.rd]) [0, 1, 1, 0, 0]).helpWins ≤ 1 ∧
     decCas1 (is_zero ||| help) = (DecSt.cas2 (is_zero ||| help), is_zero ||| help) ∧
     decCas2 (is_zero ||| help) (is_zero ||| help) = (DecSt.ret true, is_zero)) :=
  ⟨by decide, by decide, by decide,
   assist_consumed_once [Th.dec, Th.rd] [0, 1, 1, 0, 0] (by decide) (by decide) (by decide)⟩

end StickyCounter
